import Mathlib

/-!
# LineParser: collinearity-detection engine, shallow embedding

Embedding of `src/LineParser.py`: the data types `Point` and `Line`
(exact rational coordinates via Python's `Fraction`, modelled by `ℚ`),
and the `LineParser` engine that enumerates all unordered pairs of a
deduplicated point list, maps each pair to the line through it
(sloped lines keyed by slope/intercept, vertical lines keyed by the
shared x-coordinate), accumulates the points lying on each line, and
reports every line that gathered three or more points.

Python dictionaries are modelled as a total function (absent key ↦ `∅`)
together with an explicit key `Finset`; the engine branches on key
membership exactly where the source does (`if line in self.lines_to_points`,
`if pt2.x in self.vertical_x_to_y`).  The fallibility of the `Line`
constructor (Python would raise `ZeroDivisionError` on equal
x-coordinates) is modelled by an `Option`-valued constructor, and the
scan propagates a potential failure through `Option`.
-/

/-- `Point`: immutable 2D point with exact rational coordinates
(`Point.__init__` stores `x`, `y`; `__eq__`/`__hash__` are structural). -/
@[ext]
structure Point where
  x : ℚ
  y : ℚ
deriving DecidableEq

/-- `Line`: slope/intercept representation of a non-vertical line
(`Line.__eq__` compares `m` and `b`; `__hash__` hashes the pair). -/
@[ext]
structure Line where
  m : ℚ
  b : ℚ
deriving DecidableEq

/-- The body of `Line.__init__`: `m = (pt1.y - pt2.y)/(pt1.x - pt2.x)`,
`b = pt1.y - m * pt1.x` (exact rational arithmetic). -/
def lineThrough (pt1 pt2 : Point) : Line :=
  let m := (pt1.y - pt2.y) / (pt1.x - pt2.x)
  { m := m, b := pt1.y - m * pt1.x }

/-- `Line(pt1, pt2)` as a fallible constructor: Python raises
`ZeroDivisionError` when `pt1.x - pt2.x = 0`, modelled by `none`. -/
def Line.mk? (pt1 pt2 : Point) : Option Line :=
  if pt1.x - pt2.x = 0 then none else some (lineThrough pt1 pt2)

/-- `p` lies on the sloped line `L`: `p.y = L.m * p.x + L.b`. -/
def Point.onLine (p : Point) (L : Line) : Prop :=
  p.y = L.m * p.x + L.b

instance (p : Point) (L : Line) : Decidable (p.onLine L) :=
  inferInstanceAs (Decidable (_ = _))

/-- Boolean version of `Line.__eq__`: compares slope and intercept. -/
def lineEqB (l1 l2 : Line) : Bool :=
  decide (l1.m = l2.m) && decide (l1.b = l2.b)

/-- Three points lie on one common line (vertical allowed):
the cross-product test. -/
def collinear3 (a b c : Point) : Prop :=
  (b.x - a.x) * (c.y - a.y) = (c.x - a.x) * (b.y - a.y)

instance (a b c : Point) : Decidable (collinear3 a b c) :=
  inferInstanceAs (Decidable (_ = _))

/-- The mutable state of a `LineParser` object (`LineParser.__init__`):
`points` is the deduplicated input set; `lines_to_points` maps a sloped
line to the set of points accumulated on it; `vertical_x_to_y` maps a
vertical x-coordinate to the set of y-coordinates seen at that x;
`three_point_lines` is the set of sloped lines whose accumulated set
reached size ≥ 3.  A Python dict is a total function (absent ↦ `∅`)
plus its key set (`ltp_keys`, `vertical_keys`). -/
@[ext]
structure LineParser where
  points : Finset Point
  lines_to_points : Line → Finset Point
  ltp_keys : Finset Line
  vertical_x_to_y : ℚ → Finset ℚ
  vertical_keys : Finset ℚ
  three_point_lines : Finset Line

/-- A freshly constructed `LineParser()`: empty set, empty dicts. -/
def LineParser.init : LineParser :=
  { points := ∅
    lines_to_points := fun _ => ∅
    ltp_keys := ∅
    vertical_x_to_y := fun _ => ∅
    vertical_keys := ∅
    three_point_lines := ∅ }

/-- One iteration of the inner loop body of `get_lines_from_points` on the
pair `(pt1, pt2)`.  `none` models an uncaught `ZeroDivisionError` from the
`Line` constructor (which the guard `pt1.x - pt2.x != 0` prevents). -/
def processPair (s : LineParser) (pt1 pt2 : Point) : Option LineParser :=
  if pt1.x - pt2.x ≠ 0 then
    -- `line = Line(pt1, pt2)`
    (Line.mk? pt1 pt2).map fun line =>
      if line ∈ s.ltp_keys then
        -- `self.lines_to_points[line].add(pt1)`; `.add(pt2)`; qualify at ≥ 3
        let pts := insert pt2 (insert pt1 (s.lines_to_points line))
        { s with
          lines_to_points := Function.update s.lines_to_points line pts
          three_point_lines :=
            if 3 ≤ pts.card ∧ line ∉ s.three_point_lines then
              insert line s.three_point_lines
            else s.three_point_lines }
      else
        -- `self.lines_to_points[line] = set()`; `.add(pt1)`; `.add(pt2)`
        { s with
          lines_to_points :=
            Function.update s.lines_to_points line (insert pt2 (insert pt1 ∅))
          ltp_keys := insert line s.ltp_keys }
  else
    some <|
      if pt2.x ∈ s.vertical_keys then
        -- `self.vertical_x_to_y[pt2.x].add(pt1.y)`; `.add(pt2.y)`
        { s with
          vertical_x_to_y :=
            Function.update s.vertical_x_to_y pt2.x
              (insert pt2.y (insert pt1.y (s.vertical_x_to_y pt2.x))) }
      else
        -- `self.vertical_x_to_y[pt2.x] = set()`; `.add(pt1.y)`; `.add(pt2.y)`
        { s with
          vertical_x_to_y :=
            Function.update s.vertical_x_to_y pt2.x
              (insert pt2.y (insert pt1.y ∅))
          vertical_keys := insert pt2.x s.vertical_keys }

/-- The sequence of pairs visited by the nested loops of
`get_lines_from_points`: outer index `k` paired with every later index
(`start_index = k + 1`), i.e. `(l[k], l[j])` for all `k < j`. -/
def pairList : List Point → List (Point × Point)
  | [] => []
  | p :: ps => (ps.map fun q => (p, q)) ++ pairList ps

/-- Folding the loop body over a pair sequence, propagating a potential
`ZeroDivisionError`. -/
def scanPairs : List (Point × Point) → LineParser → Option LineParser
  | [], s => some s
  | pq :: rest, s =>
    match processPair s pq.1 pq.2 with
    | none => none
    | some s' => scanPairs rest s'

/-- `get_lines_from_points` run on parser state `s`, where `point_list`
is the materialization `list(self.points)` of the accumulated point set. -/
def get_lines_from_points (s : LineParser) (point_list : List Point) :
    Option LineParser :=
  scanPairs (pairList point_list) s

/-- `parse_points_from_csv`: adds the parsed points to `self.points`
(set insertion dedupes). -/
def parse_points_from_csv (s : LineParser) (parsed : List Point) : LineParser :=
  { s with points := s.points ∪ parsed.toFinset }

/-- The point groups reported for non-vertical lines: one group
`self.lines_to_points[line]` per `line in self.three_point_lines`. -/
def slopedGroups (s : LineParser) : Finset (Finset Point) :=
  s.three_point_lines.image s.lines_to_points

/-- The point groups reported for vertical lines: one group per key `x`
of `vertical_x_to_y` with `len(y_list) >= 3`, its points being `(x, y)`
for each stored `y`. -/
def verticalGroups (s : LineParser) : Finset (Finset Point) :=
  (s.vertical_keys.filter fun x => 3 ≤ (s.vertical_x_to_y x).card).image
    fun x => (s.vertical_x_to_y x).image fun y => Point.mk x y

/-- All reported groups, each taken as its set of points. -/
def allGroups (s : LineParser) : Finset (Finset Point) :=
  slopedGroups s ∪ verticalGroups s

/-- The number of records appended by the reporting step: one per
qualified sloped line, one per vertical x whose y-set has size ≥ 3. -/
def numGroups (s : LineParser) : ℕ :=
  s.three_point_lines.card +
    (s.vertical_keys.filter fun x => 3 ≤ (s.vertical_x_to_y x).card).card

/-- `get_3_point_lines` on a fresh parser: parse the (already
deduplicated) points, run the scan over their materialization, report
the groups.  `l` plays both the parsed-input and the materialized-list
role, which is faithful whenever `l` has no duplicates. -/
def get_3_point_lines (l : List Point) : Option (Finset (Finset Point)) :=
  (get_lines_from_points (parse_points_from_csv LineParser.init l) l).map
    allGroups

/-- The accumulation structures only grow along the scan (keys are
never removed; within a live key the point/y sets only gain members). -/
def StateLE (s t : LineParser) : Prop :=
  s.ltp_keys ⊆ t.ltp_keys ∧
  (∀ L ∈ s.ltp_keys, s.lines_to_points L ⊆ t.lines_to_points L) ∧
  s.three_point_lines ⊆ t.three_point_lines ∧
  s.vertical_keys ⊆ t.vertical_keys ∧
  (∀ x ∈ s.vertical_keys, s.vertical_x_to_y x ⊆ t.vertical_x_to_y x)

/-- The pair `(pt1, pt2)` has been registered: its sloped line key (when
the constructor succeeds) is a live key holding both points; a vertical
pair's shared x (keyed by `pt2.x`, as in the source) holds both
y-coordinates. -/
def recorded (s : LineParser) (pt1 pt2 : Point) : Prop :=
  (∀ L, Line.mk? pt1 pt2 = some L →
    L ∈ s.ltp_keys ∧ pt1 ∈ s.lines_to_points L ∧ pt2 ∈ s.lines_to_points L) ∧
  (pt1.x - pt2.x = 0 →
    pt2.x ∈ s.vertical_keys ∧ pt1.y ∈ s.vertical_x_to_y pt2.x ∧
      pt2.y ∈ s.vertical_x_to_y pt2.x)

/-- Invariant of the accumulation structures during the scan over a
deduplicated input set `A`: every accumulated point is an input point on
its key line; dead keys map to `∅`; a live sloped entry holds ≥ 2
points; `three_point_lines` holds exactly the live keys whose entry
reached size ≥ 3; every stored vertical y belongs, with its key x, to
an input point; a live vertical entry holds ≥ 2 y-values. -/
structure ScanInv (A : Finset Point) (s : LineParser) : Prop where
  entry_sound : ∀ L : Line, ∀ p ∈ s.lines_to_points L, p ∈ A ∧ p.onLine L
  entry_empty : ∀ L : Line, L ∉ s.ltp_keys → s.lines_to_points L = ∅
  entry_two : ∀ L ∈ s.ltp_keys, 2 ≤ (s.lines_to_points L).card
  three_sub : s.three_point_lines ⊆ s.ltp_keys
  three_card : ∀ L ∈ s.three_point_lines, 3 ≤ (s.lines_to_points L).card
  three_complete :
    ∀ L ∈ s.ltp_keys, 3 ≤ (s.lines_to_points L).card → L ∈ s.three_point_lines
  v_sound : ∀ x : ℚ, ∀ y ∈ s.vertical_x_to_y x, Point.mk x y ∈ A
  v_empty : ∀ x : ℚ, x ∉ s.vertical_keys → s.vertical_x_to_y x = ∅
  v_two : ∀ x ∈ s.vertical_keys, 2 ≤ (s.vertical_x_to_y x).card

/-- The input points lying on the sloped line `L`. -/
def linePts (l : List Point) (L : Line) : Finset Point :=
  l.toFinset.filter fun p => p.onLine L

/-- The input points lying on the vertical line `x = c`. -/
def vertPts (l : List Point) (c : ℚ) : Finset Point :=
  l.toFinset.filter fun p => p.x = c

/-! ## Concrete inputs for witnesses -/

/-- Three collinear points on `y = x`. -/
def l3 : List Point := [⟨0, 0⟩, ⟨1, 1⟩, ⟨2, 2⟩]

/-- The parser state after a fresh run on `l3`. -/
def s3 : LineParser := (get_lines_from_points LineParser.init l3).getD LineParser.init

/-- The vertical-line scenario of the spec: three points with `x = 2`
plus one stray point. -/
def lv : List Point := [⟨2, 1⟩, ⟨2, 5⟩, ⟨2, 9⟩, ⟨3, 0⟩]

/-- The parser state after a fresh run on `lv`. -/
def sv : LineParser := (get_lines_from_points LineParser.init lv).getD LineParser.init


/-! ## Algebraic facts about `lineThrough` -/

lemma onLine_lineThrough_left (pt1 pt2 : Point) :
    pt1.onLine (lineThrough pt1 pt2) := by
  simp [Point.onLine, lineThrough]

lemma onLine_lineThrough_right (pt1 pt2 : Point) (h : pt1.x ≠ pt2.x) :
    pt2.onLine (lineThrough pt1 pt2) := by
  have hx : pt1.x - pt2.x ≠ 0 := sub_ne_zero.mpr h
  simp only [Point.onLine, lineThrough]
  field_simp
  ring

lemma lineThrough_eq_of_onLine {p q : Point} {L : Line}
    (hp : p.onLine L) (hq : q.onLine L) (h : p.x ≠ q.x) :
    lineThrough p q = L := by
  have hx : p.x - q.x ≠ 0 := sub_ne_zero.mpr h
  unfold Point.onLine at hp hq
  unfold lineThrough
  ext
  · rw [hp, hq]
    field_simp
    ring
  · rw [hp, hq]
    field_simp
    ring

lemma mk?_eq_some_iff {p q : Point} {L : Line} :
    Line.mk? p q = some L ↔ p.x ≠ q.x ∧ L = lineThrough p q := by
  unfold Line.mk?
  rcases eq_or_ne p.x q.x with h | h
  · simp [sub_eq_zero.mpr h, h]
  · simp [sub_ne_zero.mpr h, h, eq_comm]

lemma mk?_eq_none_iff {p q : Point} : Line.mk? p q = none ↔ p.x = q.x := by
  unfold Line.mk?
  rw [← sub_eq_zero (a := p.x)]
  split <;> simp_all

lemma onLine_of_mk? {p q : Point} {L : Line} (h : Line.mk? p q = some L) :
    p.onLine L ∧ q.onLine L := by
  obtain ⟨hx, rfl⟩ := mk?_eq_some_iff.mp h
  exact ⟨onLine_lineThrough_left p q, onLine_lineThrough_right p q hx⟩

/-- Two distinct points on a common sloped line have distinct
x-coordinates. -/
lemma x_ne_of_onLine {p q : Point} {L : Line}
    (hp : p.onLine L) (hq : q.onLine L) (hne : p ≠ q) : p.x ≠ q.x := by
  intro hx
  apply hne
  ext
  · exact hx
  · rw [hp, hq, hx]

/-- The symmetric pair produces the same line key. -/
lemma mk?_comm {p q : Point} (h : p.x ≠ q.x) :
    Line.mk? p q = Line.mk? q p := by
  have h' : q.x ≠ p.x := fun e => h e.symm
  rcases mk?_eq_some_iff.mpr ⟨h, rfl⟩ with hpq
  rw [hpq]
  symm
  rw [mk?_eq_some_iff]
  refine ⟨h', ?_⟩
  symm
  exact lineThrough_eq_of_onLine (onLine_lineThrough_right p q h)
    (onLine_lineThrough_left p q) h'

/-! ## The pair sequence of the nested loops -/

lemma pairList_mem_iff {l : List Point} {p q : Point} :
    (p, q) ∈ pairList l ↔
      ∃ i j : Fin l.length, (i : ℕ) < j ∧ p = l.get i ∧ q = l.get j := by
  induction l with
  | nil => simp [pairList]
  | cons a tl ih =>
    simp only [pairList, List.mem_append, List.mem_map, ih]
    constructor
    · rintro (⟨b, hb, hpq⟩ | ⟨i, j, hij, hp, hq⟩)
      · obtain ⟨k, hk⟩ := List.get_of_mem hb
        cases hpq
        exact ⟨⟨0, Nat.succ_pos _⟩, ⟨k + 1, Nat.succ_lt_succ k.isLt⟩,
          Nat.succ_pos _, rfl, by simp [hk.symm]⟩
      · exact ⟨⟨i + 1, Nat.succ_lt_succ i.isLt⟩, ⟨j + 1, Nat.succ_lt_succ j.isLt⟩,
          Nat.succ_lt_succ hij, by simpa using hp, by simpa using hq⟩
    · rintro ⟨⟨i, hi⟩, ⟨j, hj⟩, hij, hp, hq⟩
      cases i with
      | zero =>
        left
        cases j with
        | zero => simp at hij
        | succ j =>
          refine ⟨q, ?_, ?_⟩
          · have e : (a :: tl).get ⟨j + 1, hj⟩ =
                tl.get ⟨j, Nat.lt_of_succ_lt_succ hj⟩ := rfl
            rw [hq, e]
            exact List.get_mem tl j _
          · simp at hp
            rw [hp]
      | succ i =>
        right
        cases j with
        | zero => simp at hij
        | succ j =>
          exact ⟨⟨i, Nat.lt_of_succ_lt_succ hi⟩, ⟨j, Nat.lt_of_succ_lt_succ hj⟩,
            Nat.lt_of_succ_lt_succ hij, by simpa using hp, by simpa using hq⟩

lemma pairList_complete {l : List Point} {p q : Point}
    (hp : p ∈ l) (hq : q ∈ l) (hne : p ≠ q) :
    (p, q) ∈ pairList l ∨ (q, p) ∈ pairList l := by
  induction l with
  | nil => cases hp
  | cons a tl ih =>
    simp only [pairList, List.mem_append, List.mem_map]
    rcases List.mem_cons.mp hp with rfl | hp'
    · left; left
      exact ⟨q, List.mem_cons.mp hq |>.resolve_left (fun e => hne e.symm), rfl⟩
    · rcases List.mem_cons.mp hq with rfl | hq'
      · right; left
        exact ⟨p, hp', rfl⟩
      · rcases ih hp' hq' with h | h
        · exact Or.inl (Or.inr h)
        · exact Or.inr (Or.inr h)

lemma pairList_mem_of_mem {l : List Point} {p q : Point}
    (h : (p, q) ∈ pairList l) : p ∈ l ∧ q ∈ l := by
  obtain ⟨i, j, _, hp, hq⟩ := pairList_mem_iff.mp h
  exact ⟨hp ▸ List.get_mem l i.1 i.2, hq ▸ List.get_mem l j.1 j.2⟩

lemma pairList_ne_of_nodup {l : List Point} (hnd : l.Nodup) {p q : Point}
    (h : (p, q) ∈ pairList l) : p ≠ q := by
  obtain ⟨i, j, hij, hp, hq⟩ := pairList_mem_iff.mp h
  rw [hp, hq]
  intro e
  have eij : i = j := (List.Nodup.get_inj_iff hnd).mp e
  rw [eij] at hij
  exact lt_irrefl _ hij

lemma two_mul_length_pairList (l : List Point) :
    2 * (pairList l).length = l.length * (l.length - 1) := by
  induction l with
  | nil => simp [pairList]
  | cons a tl ih =>
    simp only [pairList, List.length_append, List.length_map, List.length_cons]
    cases htl : tl.length with
    | zero =>
      have : pairList tl = [] := by
        cases tl with
        | nil => rfl
        | cons b tl2 => simp at htl
      simp [this, htl]
    | succ n =>
      rw [Nat.mul_add, ih, htl, Nat.add_sub_cancel, Nat.add_sub_cancel]
      ring

lemma pairList_nodup {l : List Point} (hnd : l.Nodup) : (pairList l).Nodup := by
  induction l with
  | nil => simp [pairList]
  | cons a tl ih =>
    rcases List.nodup_cons.mp hnd with ⟨ha, htl⟩
    refine List.Nodup.append ?_ (ih htl) ?_
    · exact htl.map fun q1 q2 e => congrArg Prod.snd e
    · intro pq hmap hrest
      obtain ⟨q, _, rfl⟩ := List.mem_map.mp hmap
      exact ha (pairList_mem_of_mem hrest).1

/-! ## Totality of the scan: the vertical guard prevents the
`ZeroDivisionError` of the `Line` constructor -/

lemma mk?_eq_some_lineThrough {pt1 pt2 : Point} (h : pt1.x - pt2.x ≠ 0) :
    Line.mk? pt1 pt2 = some (lineThrough pt1 pt2) := by
  unfold Line.mk?
  rw [if_neg h]

lemma processPair_isSome (s : LineParser) (pt1 pt2 : Point) :
    ∃ s', processPair s pt1 pt2 = some s' := by
  unfold processPair
  split
  · rename_i h
    rw [mk?_eq_some_lineThrough h, Option.map_some']
    exact ⟨_, rfl⟩
  · exact ⟨_, rfl⟩

lemma scanPairs_isSome (ps : List (Point × Point)) (s : LineParser) :
    ∃ s', scanPairs ps s = some s' := by
  induction ps generalizing s with
  | nil => exact ⟨s, rfl⟩
  | cons pq rest ih =>
    obtain ⟨s1, h1⟩ := processPair_isSome s pq.1 pq.2
    obtain ⟨s2, h2⟩ := ih s1
    refine ⟨s2, ?_⟩
    unfold scanPairs
    rw [h1]
    exact h2

/-! ## Monotone growth of the accumulation structures -/

lemma StateLE.refl (s : LineParser) : StateLE s s :=
  ⟨subset_rfl, fun _ _ => subset_rfl, subset_rfl, subset_rfl, fun _ _ => subset_rfl⟩

lemma StateLE.trans {s t u : LineParser} (h1 : StateLE s t) (h2 : StateLE t u) :
    StateLE s u := by
  obtain ⟨k1, e1, t1, v1, w1⟩ := h1
  obtain ⟨k2, e2, t2, v2, w2⟩ := h2
  exact ⟨k1.trans k2,
    fun L hL => (e1 L hL).trans (e2 L (k1 hL)),
    t1.trans t2, v1.trans v2,
    fun x hx => (w1 x hx).trans (w2 x (v1 hx))⟩

lemma processPair_le {s s' : LineParser} {pt1 pt2 : Point}
    (h : processPair s pt1 pt2 = some s') : StateLE s s' := by
  unfold processPair at h
  split at h
  · rename_i hx
    rw [mk?_eq_some_lineThrough hx, Option.map_some'] at h
    injection h with h
    subst h
    split
    · rename_i hkey
      unfold StateLE
      dsimp only
      refine ⟨subset_rfl, ?_, ?_, subset_rfl, fun _ _ => subset_rfl⟩
      · intro L _
        by_cases hL : L = lineThrough pt1 pt2
        · subst hL
          rw [Function.update_same]
          intro z hz
          exact Finset.mem_insert_of_mem (Finset.mem_insert_of_mem hz)
        · rw [Function.update_noteq hL]
      · split
        · exact Finset.subset_insert _ _
        · exact subset_rfl
    · rename_i hkey
      unfold StateLE
      dsimp only
      refine ⟨Finset.subset_insert _ _, ?_, subset_rfl, subset_rfl,
        fun _ _ => subset_rfl⟩
      intro L hL
      have hne : L ≠ lineThrough pt1 pt2 := fun e => hkey (e ▸ hL)
      rw [Function.update_noteq hne]
  · injection h with h
    subst h
    split
    · rename_i hkey
      unfold StateLE
      dsimp only
      refine ⟨subset_rfl, fun _ _ => subset_rfl, subset_rfl, subset_rfl, ?_⟩
      intro x _
      by_cases hxx : x = pt2.x
      · subst hxx
        rw [Function.update_same]
        intro z hz
        exact Finset.mem_insert_of_mem (Finset.mem_insert_of_mem hz)
      · rw [Function.update_noteq hxx]
    · rename_i hkey
      unfold StateLE
      dsimp only
      refine ⟨subset_rfl, fun _ _ => subset_rfl, subset_rfl,
        Finset.subset_insert _ _, ?_⟩
      intro x hx
      have hne : x ≠ pt2.x := fun e => hkey (e ▸ hx)
      rw [Function.update_noteq hne]

lemma scanPairs_le {ps : List (Point × Point)} {s s' : LineParser}
    (h : scanPairs ps s = some s') : StateLE s s' := by
  induction ps generalizing s with
  | nil =>
    injection h with h
    subst h
    exact StateLE.refl s
  | cons pq rest ih =>
    unfold scanPairs at h
    obtain ⟨s1, h1⟩ := processPair_isSome s pq.1 pq.2
    rw [h1] at h
    exact (processPair_le h1).trans (ih h)

/-! ## Every visited pair is registered in the accumulation structures -/

lemma recorded_mono {s t : LineParser} (hle : StateLE s t) {pt1 pt2 : Point}
    (h : recorded s pt1 pt2) : recorded t pt1 pt2 := by
  obtain ⟨k1, e1, _, v1, w1⟩ := hle
  obtain ⟨h1, h2⟩ := h
  constructor
  · intro L hL
    obtain ⟨hk, hp1, hp2⟩ := h1 L hL
    exact ⟨k1 hk, e1 L hk hp1, e1 L hk hp2⟩
  · intro hx
    obtain ⟨hk, hy1, hy2⟩ := h2 hx
    exact ⟨v1 hk, w1 _ hk hy1, w1 _ hk hy2⟩

lemma processPair_records {s s' : LineParser} {pt1 pt2 : Point}
    (h : processPair s pt1 pt2 = some s') : recorded s' pt1 pt2 := by
  unfold processPair at h
  split at h
  · rename_i hx
    rw [mk?_eq_some_lineThrough hx, Option.map_some'] at h
    injection h with h
    subst h
    constructor
    · intro L hL
      rw [mk?_eq_some_lineThrough hx] at hL
      injection hL with hL
      subst hL
      split
      · rename_i hkey
        dsimp only
        refine ⟨hkey, ?_, ?_⟩
        · rw [Function.update_same]
          exact Finset.mem_insert_of_mem (Finset.mem_insert_self _ _)
        · rw [Function.update_same]
          exact Finset.mem_insert_self _ _
      · rename_i hkey
        dsimp only
        refine ⟨Finset.mem_insert_self _ _, ?_, ?_⟩
        · rw [Function.update_same]
          exact Finset.mem_insert_of_mem (Finset.mem_insert_self _ _)
        · rw [Function.update_same]
          exact Finset.mem_insert_self _ _
    · intro hcontra
      exact absurd hcontra hx
  · rename_i hx
    injection h with h
    subst h
    have hx0 : pt1.x = pt2.x := sub_eq_zero.mp (not_not.mp hx)
    constructor
    · intro L hL
      rw [mk?_eq_none_iff.mpr hx0] at hL
      simp at hL
    · intro _
      split
      · rename_i hkey
        dsimp only
        refine ⟨hkey, ?_, ?_⟩
        · rw [Function.update_same]
          exact Finset.mem_insert_of_mem (Finset.mem_insert_self _ _)
        · rw [Function.update_same]
          exact Finset.mem_insert_self _ _
      · rename_i hkey
        dsimp only
        refine ⟨Finset.mem_insert_self _ _, ?_, ?_⟩
        · rw [Function.update_same]
          exact Finset.mem_insert_of_mem (Finset.mem_insert_self _ _)
        · rw [Function.update_same]
          exact Finset.mem_insert_self _ _

lemma scanPairs_records {ps : List (Point × Point)} {s s' : LineParser}
    (h : scanPairs ps s = some s') {pt1 pt2 : Point}
    (hmem : (pt1, pt2) ∈ ps) : recorded s' pt1 pt2 := by
  induction ps generalizing s with
  | nil => cases hmem
  | cons pq rest ih =>
    unfold scanPairs at h
    obtain ⟨s1, h1⟩ := processPair_isSome s pq.1 pq.2
    rw [h1] at h
    rcases List.mem_cons.mp hmem with e | hmem'
    · subst e
      exact recorded_mono (scanPairs_le h) (processPair_records h1)
    · exact ih h hmem'

/-! ## The scan invariant -/

lemma scanInv_init (A : Finset Point) : ScanInv A LineParser.init := by
  refine ⟨?_, ?_, ?_, ?_, ?_, ?_, ?_, ?_, ?_⟩ <;>
    simp [LineParser.init]

lemma processPair_inv {A : Finset Point} {s s' : LineParser} {pt1 pt2 : Point}
    (inv : ScanInv A s) (h1 : pt1 ∈ A) (h2 : pt2 ∈ A) (hne : pt1 ≠ pt2)
    (h : processPair s pt1 pt2 = some s') : ScanInv A s' := by
  unfold processPair at h
  split at h
  case isTrue hx =>
    rw [mk?_eq_some_lineThrough hx, Option.map_some'] at h
    injection h with h
    subst h
    have hxne : pt1.x ≠ pt2.x := fun e => hx (sub_eq_zero.mpr e)
    have hon1 : pt1.onLine (lineThrough pt1 pt2) := onLine_lineThrough_left pt1 pt2
    have hon2 : pt2.onLine (lineThrough pt1 pt2) :=
      onLine_lineThrough_right pt1 pt2 hxne
    split
    case isTrue hkey =>
      have hsubpts : s.lines_to_points (lineThrough pt1 pt2) ⊆
          insert pt2 (insert pt1 (s.lines_to_points (lineThrough pt1 pt2))) :=
        fun z hz => Finset.mem_insert_of_mem (Finset.mem_insert_of_mem hz)
      constructor <;> dsimp only
      case entry_sound =>
        intro L p hp
        by_cases hL : L = lineThrough pt1 pt2
        · subst hL
          rw [Function.update_same] at hp
          rcases Finset.mem_insert.mp hp with rfl | hp
          · exact ⟨h2, hon2⟩
          · rcases Finset.mem_insert.mp hp with rfl | hp
            · exact ⟨h1, hon1⟩
            · exact inv.entry_sound _ p hp
        · rw [Function.update_noteq hL] at hp
          exact inv.entry_sound _ p hp
      case entry_empty =>
        intro L hL
        have hne' : L ≠ lineThrough pt1 pt2 := fun e => hL (e ▸ hkey)
        rw [Function.update_noteq hne']
        exact inv.entry_empty _ hL
      case entry_two =>
        intro L hL
        by_cases hLl : L = lineThrough pt1 pt2
        · subst hLl
          rw [Function.update_same]
          exact le_trans (inv.entry_two _ hkey) (Finset.card_le_card hsubpts)
        · rw [Function.update_noteq hLl]
          exact inv.entry_two _ hL
      case three_sub =>
        split
        · exact Finset.insert_subset hkey inv.three_sub
        · exact inv.three_sub
      case three_card =>
        intro L hL
        by_cases hLl : L = lineThrough pt1 pt2
        · subst hLl
          rw [Function.update_same]
          split at hL
          · rename_i hc
            exact hc.1
          · exact le_trans (inv.three_card _ hL) (Finset.card_le_card hsubpts)
        · rw [Function.update_noteq hLl]
          split at hL
          · rcases Finset.mem_insert.mp hL with e | hL2
            · exact absurd e hLl
            · exact inv.three_card _ hL2
          · exact inv.three_card _ hL
      case three_complete =>
        intro L hL hcard
        by_cases hLl : L = lineThrough pt1 pt2
        · subst hLl
          rw [Function.update_same] at hcard
          by_cases hmem : lineThrough pt1 pt2 ∈ s.three_point_lines
          · split
            · exact Finset.mem_insert_self _ _
            · exact hmem
          · rw [if_pos ⟨hcard, hmem⟩]
            exact Finset.mem_insert_self _ _
        · rw [Function.update_noteq hLl] at hcard
          have hthree := inv.three_complete _ hL hcard
          split
          · exact Finset.mem_insert_of_mem hthree
          · exact hthree
      case v_sound => exact inv.v_sound
      case v_empty => exact inv.v_empty
      case v_two => exact inv.v_two
    case isFalse hkey =>
      constructor <;> dsimp only
      case entry_sound =>
        intro L p hp
        by_cases hL : L = lineThrough pt1 pt2
        · subst hL
          rw [Function.update_same] at hp
          rcases Finset.mem_insert.mp hp with rfl | hp
          · exact ⟨h2, hon2⟩
          · rcases Finset.mem_insert.mp hp with rfl | hp
            · exact ⟨h1, hon1⟩
            · simp at hp
        · rw [Function.update_noteq hL] at hp
          exact inv.entry_sound _ p hp
      case entry_empty =>
        intro L hL
        have hL1 : L ≠ lineThrough pt1 pt2 := fun e =>
          hL (e ▸ Finset.mem_insert_self _ _)
        have hL2 : L ∉ s.ltp_keys := fun e => hL (Finset.mem_insert_of_mem e)
        rw [Function.update_noteq hL1]
        exact inv.entry_empty _ hL2
      case entry_two =>
        intro L hL
        rcases Finset.mem_insert.mp hL with rfl | hL2
        · rw [Function.update_same]
          exact Finset.one_lt_card.mpr ⟨pt2, Finset.mem_insert_self _ _, pt1,
            Finset.mem_insert_of_mem (Finset.mem_insert_self _ _),
            fun e => hne e.symm⟩
        · have hLl : L ≠ lineThrough pt1 pt2 := fun e => hkey (e ▸ hL2)
          rw [Function.update_noteq hLl]
          exact inv.entry_two _ hL2
      case three_sub => exact inv.three_sub.trans (Finset.subset_insert _ _)
      case three_card =>
        intro L hL
        have hL2 : L ∈ s.ltp_keys := inv.three_sub hL
        have hLl : L ≠ lineThrough pt1 pt2 := fun e => hkey (e ▸ hL2)
        rw [Function.update_noteq hLl]
        exact inv.three_card _ hL
      case three_complete =>
        intro L hL hcard
        rcases Finset.mem_insert.mp hL with rfl | hL2
        · rw [Function.update_same] at hcard
          have hle2 : (insert pt2 (insert pt1 (∅ : Finset Point))).card ≤ 2 :=
            le_trans (Finset.card_insert_le _ _) (by simp)
          exfalso
          omega
        · have hLl : L ≠ lineThrough pt1 pt2 := fun e => hkey (e ▸ hL2)
          rw [Function.update_noteq hLl] at hcard
          exact inv.three_complete _ hL2 hcard
      case v_sound => exact inv.v_sound
      case v_empty => exact inv.v_empty
      case v_two => exact inv.v_two
  case isFalse hx =>
    injection h with h
    subst h
    have hx0 : pt1.x = pt2.x := sub_eq_zero.mp (not_not.mp hx)
    have hyne : pt1.y ≠ pt2.y := fun e => hne (Point.ext hx0 e)
    split
    case isTrue hkey =>
      constructor <;> dsimp only
      case entry_sound => exact inv.entry_sound
      case entry_empty => exact inv.entry_empty
      case entry_two => exact inv.entry_two
      case three_sub => exact inv.three_sub
      case three_card => exact inv.three_card
      case three_complete => exact inv.three_complete
      case v_sound =>
        intro x y hy
        by_cases hxx : x = pt2.x
        · subst hxx
          rw [Function.update_same] at hy
          rcases Finset.mem_insert.mp hy with rfl | hy
          · exact h2
          · rcases Finset.mem_insert.mp hy with rfl | hy
            · rw [← hx0]
              exact h1
            · exact inv.v_sound _ y hy
        · rw [Function.update_noteq hxx] at hy
          exact inv.v_sound _ y hy
      case v_empty =>
        intro x hxk
        have hxx : x ≠ pt2.x := fun e => hxk (e ▸ hkey)
        rw [Function.update_noteq hxx]
        exact inv.v_empty _ hxk
      case v_two =>
        intro x hxk
        by_cases hxx : x = pt2.x
        · subst hxx
          rw [Function.update_same]
          refine le_trans (inv.v_two _ hkey) (Finset.card_le_card ?_)
          exact fun z hz =>
            Finset.mem_insert_of_mem (Finset.mem_insert_of_mem hz)
        · rw [Function.update_noteq hxx]
          exact inv.v_two _ hxk
    case isFalse hkey =>
      constructor <;> dsimp only
      case entry_sound => exact inv.entry_sound
      case entry_empty => exact inv.entry_empty
      case entry_two => exact inv.entry_two
      case three_sub => exact inv.three_sub
      case three_card => exact inv.three_card
      case three_complete => exact inv.three_complete
      case v_sound =>
        intro x y hy
        by_cases hxx : x = pt2.x
        · subst hxx
          rw [Function.update_same] at hy
          rcases Finset.mem_insert.mp hy with rfl | hy
          · exact h2
          · rcases Finset.mem_insert.mp hy with rfl | hy
            · rw [← hx0]
              exact h1
            · simp at hy
        · rw [Function.update_noteq hxx] at hy
          exact inv.v_sound _ y hy
      case v_empty =>
        intro x hxk
        have hx1 : x ≠ pt2.x := fun e => hxk (e ▸ Finset.mem_insert_self _ _)
        have hx2 : x ∉ s.vertical_keys := fun e => hxk (Finset.mem_insert_of_mem e)
        rw [Function.update_noteq hx1]
        exact inv.v_empty _ hx2
      case v_two =>
        intro x hxk
        rcases Finset.mem_insert.mp hxk with rfl | hxk2
        · rw [Function.update_same]
          exact Finset.one_lt_card.mpr ⟨pt2.y, Finset.mem_insert_self _ _, pt1.y,
            Finset.mem_insert_of_mem (Finset.mem_insert_self _ _),
            fun e => hyne e.symm⟩
        · have hxx : x ≠ pt2.x := fun e => hkey (e ▸ hxk2)
          rw [Function.update_noteq hxx]
          exact inv.v_two _ hxk2

lemma scanPairs_inv {A : Finset Point} {ps : List (Point × Point)}
    {s s' : LineParser} (inv : ScanInv A s)
    (hps : ∀ pq ∈ ps, pq.1 ∈ A ∧ pq.2 ∈ A ∧ pq.1 ≠ pq.2)
    (h : scanPairs ps s = some s') : ScanInv A s' := by
  induction ps generalizing s with
  | nil =>
    injection h with h
    subst h
    exact inv
  | cons pq rest ih =>
    unfold scanPairs at h
    obtain ⟨s1, h1⟩ := processPair_isSome s pq.1 pq.2
    rw [h1] at h
    obtain ⟨m1, m2, m3⟩ := hps pq (List.mem_cons_self pq rest)
    exact ih (processPair_inv inv m1 m2 m3 h1)
      (fun pq' hpq' => hps pq' (List.mem_cons_of_mem pq hpq')) h

/-! ## Characterization of the final state of a run on a fresh parser -/

lemma run_inv {l : List Point} {s : LineParser} (hnd : l.Nodup)
    (h : get_lines_from_points LineParser.init l = some s) :
    ScanInv l.toFinset s := by
  refine scanPairs_inv (scanInv_init _) ?_ h
  rintro ⟨p, q⟩ hpq
  obtain ⟨hp, hq⟩ := pairList_mem_of_mem hpq
  exact ⟨List.mem_toFinset.mpr hp, List.mem_toFinset.mpr hq,
    pairList_ne_of_nodup hnd hpq⟩

lemma run_recorded {l : List Point} {s : LineParser}
    (h : get_lines_from_points LineParser.init l = some s)
    {p q : Point} (hp : p ∈ l) (hq : q ∈ l) (hne : p ≠ q) :
    recorded s p q ∨ recorded s q p :=
  (pairList_complete hp hq hne).imp (scanPairs_records h) (scanPairs_records h)

lemma lineThrough_comm {p q : Point} (hx : p.x ≠ q.x) :
    lineThrough q p = lineThrough p q := by
  have e := mk?_comm hx
  rw [mk?_eq_some_lineThrough (sub_ne_zero.mpr hx),
    mk?_eq_some_lineThrough (sub_ne_zero.mpr fun z => hx z.symm)] at e
  injection e with e
  exact e.symm

lemma run_sloped_recorded {l : List Point} {s : LineParser}
    (h : get_lines_from_points LineParser.init l = some s)
    {p q : Point} (hp : p ∈ l) (hq : q ∈ l) (hne : p ≠ q) (hx : p.x ≠ q.x) :
    lineThrough p q ∈ s.ltp_keys ∧
      p ∈ s.lines_to_points (lineThrough p q) ∧
      q ∈ s.lines_to_points (lineThrough p q) := by
  rcases run_recorded h hp hq hne with hr | hr
  · exact hr.1 _ (mk?_eq_some_lineThrough (sub_ne_zero.mpr hx))
  · have h2 := hr.1 _
      (mk?_eq_some_lineThrough (sub_ne_zero.mpr fun z => hx z.symm))
    rw [lineThrough_comm hx] at h2
    exact ⟨h2.1, h2.2.2, h2.2.1⟩

lemma run_vertical_recorded {l : List Point} {s : LineParser}
    (h : get_lines_from_points LineParser.init l = some s)
    {p q : Point} (hp : p ∈ l) (hq : q ∈ l) (hne : p ≠ q) (hx : p.x = q.x) :
    p.x ∈ s.vertical_keys ∧ p.y ∈ s.vertical_x_to_y p.x ∧
      q.y ∈ s.vertical_x_to_y p.x := by
  rcases run_recorded h hp hq hne with hr | hr
  · have h2 := hr.2 (sub_eq_zero.mpr hx)
    rw [hx]
    exact h2
  · have h2 := hr.2 (sub_eq_zero.mpr hx.symm)
    exact ⟨h2.1, h2.2.2, h2.2.1⟩

lemma keys_iff {l : List Point} {s : LineParser} (hnd : l.Nodup)
    (h : get_lines_from_points LineParser.init l = some s) (L : Line) :
    L ∈ s.ltp_keys ↔ 2 ≤ (linePts l L).card := by
  have inv := run_inv hnd h
  constructor
  · intro hL
    refine le_trans (inv.entry_two _ hL) (Finset.card_le_card ?_)
    intro p hp
    obtain ⟨hpA, hponL⟩ := inv.entry_sound L p hp
    exact Finset.mem_filter.mpr ⟨hpA, hponL⟩
  · intro hcard
    obtain ⟨a, ha, b, hb, hab⟩ := Finset.one_lt_card.mp hcard
    obtain ⟨haA, haL⟩ := Finset.mem_filter.mp ha
    obtain ⟨hbA, hbL⟩ := Finset.mem_filter.mp hb
    have hax : a.x ≠ b.x := x_ne_of_onLine haL hbL hab
    obtain ⟨hk, _, _⟩ := run_sloped_recorded h (List.mem_toFinset.mp haA)
      (List.mem_toFinset.mp hbA) hab hax
    rwa [lineThrough_eq_of_onLine haL hbL hax] at hk

lemma entry_eq {l : List Point} {s : LineParser} (hnd : l.Nodup)
    (h : get_lines_from_points LineParser.init l = some s) {L : Line}
    (hL : L ∈ s.ltp_keys) : s.lines_to_points L = linePts l L := by
  have inv := run_inv hnd h
  apply Finset.Subset.antisymm
  · intro p hp
    obtain ⟨hpA, hponL⟩ := inv.entry_sound L p hp
    exact Finset.mem_filter.mpr ⟨hpA, hponL⟩
  · intro p hp
    obtain ⟨hpA, hponL⟩ := Finset.mem_filter.mp hp
    have hcard : 2 ≤ (linePts l L).card := (keys_iff hnd h L).mp hL
    obtain ⟨q, hq, hqp⟩ := Finset.exists_ne_of_one_lt_card hcard p
    obtain ⟨hqA, hqonL⟩ := Finset.mem_filter.mp hq
    have hpq : p ≠ q := fun e => hqp e.symm
    have hpx : p.x ≠ q.x := x_ne_of_onLine hponL hqonL hpq
    obtain ⟨_, hpe, _⟩ := run_sloped_recorded h (List.mem_toFinset.mp hpA)
      (List.mem_toFinset.mp hqA) hpq hpx
    rwa [lineThrough_eq_of_onLine hponL hqonL hpx] at hpe

lemma three_iff {l : List Point} {s : LineParser} (hnd : l.Nodup)
    (h : get_lines_from_points LineParser.init l = some s) (L : Line) :
    L ∈ s.three_point_lines ↔ 3 ≤ (linePts l L).card := by
  have inv := run_inv hnd h
  constructor
  · intro hL
    have hk := inv.three_sub hL
    rw [← entry_eq hnd h hk]
    exact inv.three_card _ hL
  · intro hcard
    have hk : L ∈ s.ltp_keys := (keys_iff hnd h L).mpr (by omega)
    refine inv.three_complete _ hk ?_
    rw [entry_eq hnd h hk]
    exact hcard

lemma vkeys_iff {l : List Point} {s : LineParser} (hnd : l.Nodup)
    (h : get_lines_from_points LineParser.init l = some s) (c : ℚ) :
    c ∈ s.vertical_keys ↔ 2 ≤ (vertPts l c).card := by
  have inv := run_inv hnd h
  constructor
  · intro hc
    refine le_trans (inv.v_two _ hc) (le_trans (Finset.card_le_card ?_)
      (Finset.card_image_le (f := Point.y)))
    intro y hy
    have hmem := inv.v_sound c y hy
    refine Finset.mem_image.mpr ⟨Point.mk c y, ?_, rfl⟩
    exact Finset.mem_filter.mpr ⟨hmem, rfl⟩
  · intro hcard
    obtain ⟨a, ha, b, hb, hab⟩ := Finset.one_lt_card.mp hcard
    obtain ⟨haA, hax⟩ := Finset.mem_filter.mp ha
    obtain ⟨hbA, hbx⟩ := Finset.mem_filter.mp hb
    obtain ⟨hk, _, _⟩ := run_vertical_recorded h (List.mem_toFinset.mp haA)
      (List.mem_toFinset.mp hbA) hab (hax.trans hbx.symm)
    rwa [hax] at hk

lemma vmap_eq {l : List Point} {s : LineParser} (hnd : l.Nodup)
    (h : get_lines_from_points LineParser.init l = some s) {c : ℚ}
    (hc : c ∈ s.vertical_keys) :
    s.vertical_x_to_y c = (vertPts l c).image Point.y := by
  have inv := run_inv hnd h
  apply Finset.Subset.antisymm
  · intro y hy
    have hmem := inv.v_sound c y hy
    exact Finset.mem_image.mpr ⟨Point.mk c y, Finset.mem_filter.mpr ⟨hmem, rfl⟩, rfl⟩
  · intro y hy
    obtain ⟨p, hp, hpy⟩ := Finset.mem_image.mp hy
    obtain ⟨hpA, hpx⟩ := Finset.mem_filter.mp hp
    have hcard : 2 ≤ (vertPts l c).card := (vkeys_iff hnd h c).mp hc
    obtain ⟨q, hq, hqp⟩ := Finset.exists_ne_of_one_lt_card hcard p
    obtain ⟨hqA, hqx⟩ := Finset.mem_filter.mp hq
    have hpq : p ≠ q := fun e => hqp e.symm
    obtain ⟨_, hpe, _⟩ := run_vertical_recorded h (List.mem_toFinset.mp hpA)
      (List.mem_toFinset.mp hqA) hpq (hpx.trans hqx.symm)
    rw [hpx] at hpe
    rwa [hpy] at hpe

lemma y_injOn_vertPts (l : List Point) (c : ℚ) :
    Set.InjOn Point.y (vertPts l c : Set Point) := by
  intro p hp q hq hpq
  have hpx := (Finset.mem_filter.mp hp).2
  have hqx := (Finset.mem_filter.mp hq).2
  exact Point.ext (hpx.trans hqx.symm) hpq

lemma vmap_card {l : List Point} {s : LineParser} (hnd : l.Nodup)
    (h : get_lines_from_points LineParser.init l = some s) {c : ℚ}
    (hc : c ∈ s.vertical_keys) :
    (s.vertical_x_to_y c).card = (vertPts l c).card := by
  rw [vmap_eq hnd h hc]
  exact Finset.card_image_of_injOn (y_injOn_vertPts l c)

lemma image_y_image_mk (l : List Point) (c : ℚ) :
    ((vertPts l c).image Point.y).image (fun y => Point.mk c y) = vertPts l c := by
  ext p
  simp only [Finset.mem_image]
  constructor
  · rintro ⟨y, ⟨q, hq, rfl⟩, rfl⟩
    have hqx : q.x = c := (Finset.mem_filter.mp hq).2
    have e : Point.mk c q.y = q := Point.ext hqx.symm rfl
    rwa [e]
  · intro hp
    have hpx : p.x = c := (Finset.mem_filter.mp hp).2
    refine ⟨p.y, ⟨p, hp, rfl⟩, ?_⟩
    rw [← hpx]

lemma slopedGroups_iff {l : List Point} {s : LineParser} (hnd : l.Nodup)
    (h : get_lines_from_points LineParser.init l = some s) (g : Finset Point) :
    g ∈ slopedGroups s ↔
      ∃ L : Line, 3 ≤ (linePts l L).card ∧ g = linePts l L := by
  unfold slopedGroups
  rw [Finset.mem_image]
  constructor
  · rintro ⟨L, hL, rfl⟩
    exact ⟨L, (three_iff hnd h L).mp hL,
      entry_eq hnd h ((run_inv hnd h).three_sub hL)⟩
  · rintro ⟨L, h3, rfl⟩
    have hL : L ∈ s.three_point_lines := (three_iff hnd h L).mpr h3
    exact ⟨L, hL, (entry_eq hnd h ((run_inv hnd h).three_sub hL))⟩

lemma verticalGroups_iff {l : List Point} {s : LineParser} (hnd : l.Nodup)
    (h : get_lines_from_points LineParser.init l = some s) (g : Finset Point) :
    g ∈ verticalGroups s ↔
      ∃ c : ℚ, 3 ≤ (vertPts l c).card ∧ g = vertPts l c := by
  unfold verticalGroups
  rw [Finset.mem_image]
  constructor
  · rintro ⟨c, hc, rfl⟩
    obtain ⟨hck, hc3⟩ := Finset.mem_filter.mp hc
    have hcc := vmap_card hnd h hck
    refine ⟨c, by omega, ?_⟩
    rw [vmap_eq hnd h hck, image_y_image_mk]
  · rintro ⟨c, h3, rfl⟩
    have hck : c ∈ s.vertical_keys := (vkeys_iff hnd h c).mpr (by omega)
    refine ⟨c, Finset.mem_filter.mpr ⟨hck, ?_⟩, ?_⟩
    · rw [vmap_card hnd h hck]
      exact h3
    · rw [vmap_eq hnd h hck, image_y_image_mk]

lemma allGroups_iff {l : List Point} {s : LineParser} (hnd : l.Nodup)
    (h : get_lines_from_points LineParser.init l = some s) (g : Finset Point) :
    g ∈ allGroups s ↔
      ((∃ L : Line, 3 ≤ (linePts l L).card ∧ g = linePts l L) ∨
       (∃ c : ℚ, 3 ≤ (vertPts l c).card ∧ g = vertPts l c)) := by
  unfold allGroups
  rw [Finset.mem_union, slopedGroups_iff hnd h, verticalGroups_iff hnd h]

/-! ## The claims -/

/-- C1: Soundness of output: every group returned by the engine has at
least 3 points and is exactly collinear — a sloped group's points all
satisfy `y = m·x + b` for the group's line key, and a vertical group's
points all share one x-coordinate. -/
theorem claim_C1 (l : List Point) (hnd : l.Nodup) (s : LineParser)
    (hs : get_lines_from_points LineParser.init l = some s) :
    (∀ g ∈ slopedGroups s, 3 ≤ g.card ∧
      ∃ L ∈ s.three_point_lines, g = s.lines_to_points L ∧
        ∀ p ∈ g, p.y = L.m * p.x + L.b) ∧
    (∀ g ∈ verticalGroups s, 3 ≤ g.card ∧ ∃ c : ℚ, ∀ p ∈ g, p.x = c) := by
  have inv := run_inv hnd hs
  constructor
  · intro g hg
    obtain ⟨L, hL, rfl⟩ := Finset.mem_image.mp hg
    refine ⟨inv.three_card L hL, L, hL, rfl, ?_⟩
    intro p hp
    exact (inv.entry_sound L p hp).2
  · intro g hg
    obtain ⟨c, hc, rfl⟩ := Finset.mem_image.mp hg
    obtain ⟨hck, hc3⟩ := Finset.mem_filter.mp hc
    constructor
    · rw [Finset.card_image_of_injOn fun y1 _ y2 _ e => congrArg Point.y e]
      exact hc3
    · refine ⟨c, ?_⟩
      rintro p hp
      obtain ⟨y, _, rfl⟩ := Finset.mem_image.mp hp
      rfl

theorem claim_C1_witness :
    3 ≤ ({⟨0, 0⟩, ⟨1, 1⟩, ⟨2, 2⟩} : Finset Point).card ∧
    ∃ L ∈ s3.three_point_lines,
      ({⟨0, 0⟩, ⟨1, 1⟩, ⟨2, 2⟩} : Finset Point) = s3.lines_to_points L ∧
      ∀ p ∈ ({⟨0, 0⟩, ⟨1, 1⟩, ⟨2, 2⟩} : Finset Point),
        p.y = L.m * p.x + L.b :=
  (claim_C1 l3 (by decide) s3 (by with_unfolding_all rfl)).1
    {⟨0, 0⟩, ⟨1, 1⟩, ⟨2, 2⟩} (by with_unfolding_all decide)

/-- C2: Completeness and no conflation: an emitted group's point set is
exactly the set of all input points lying on that group's line, for
sloped and for vertical groups alike. -/
theorem claim_C2 (l : List Point) (hnd : l.Nodup) (s : LineParser)
    (hs : get_lines_from_points LineParser.init l = some s) :
    (∀ L ∈ s.three_point_lines,
      s.lines_to_points L = l.toFinset.filter fun p => p.y = L.m * p.x + L.b) ∧
    (∀ c : ℚ, c ∈ s.vertical_keys → 3 ≤ (s.vertical_x_to_y c).card →
      (s.vertical_x_to_y c).image (fun y => Point.mk c y) =
        l.toFinset.filter fun p => p.x = c) := by
  constructor
  · intro L hL
    exact entry_eq hnd hs ((run_inv hnd hs).three_sub hL)
  · intro c hck _
    rw [vmap_eq hnd hs hck, image_y_image_mk]
    rfl

theorem claim_C2_witness :
    s3.lines_to_points ⟨1, 0⟩ =
      l3.toFinset.filter fun p =>
        p.y = (⟨1, 0⟩ : Line).m * p.x + (⟨1, 0⟩ : Line).b :=
  (claim_C2 l3 (by decide) s3 (by with_unfolding_all rfl)).1 ⟨1, 0⟩
    (by with_unfolding_all decide)

/-- C3: Permutation invariance / determinism: two runs of the engine on
materializations of the same point set yield the same set of groups. -/
theorem claim_C3 (l1 l2 : List Point) (hnd1 : l1.Nodup) (hnd2 : l2.Nodup)
    (hset : l1.toFinset = l2.toFinset) :
    (get_lines_from_points LineParser.init l1).map allGroups =
      (get_lines_from_points LineParser.init l2).map allGroups := by
  obtain ⟨s1, hs1⟩ := scanPairs_isSome (pairList l1) LineParser.init
  obtain ⟨s2, hs2⟩ := scanPairs_isSome (pairList l2) LineParser.init
  have hs1' : get_lines_from_points LineParser.init l1 = some s1 := hs1
  have hs2' : get_lines_from_points LineParser.init l2 = some s2 := hs2
  rw [hs1', hs2', Option.map_some', Option.map_some']
  congr 1
  ext g
  rw [allGroups_iff hnd1 hs1' g, allGroups_iff hnd2 hs2' g]
  simp only [linePts, vertPts, hset]

theorem claim_C3_witness :
    (get_lines_from_points LineParser.init l3).map allGroups =
      (get_lines_from_points LineParser.init [⟨1, 1⟩, ⟨2, 2⟩, ⟨0, 0⟩]).map
        allGroups :=
  claim_C3 l3 [⟨1, 1⟩, ⟨2, 2⟩, ⟨0, 0⟩] (by decide) (by decide) (by decide)

/-- C4: Line-identity equality: two pairs of distinct-x points on the
common line `y = m·x + b` construct equal `Line` values, computed by
exact rational arithmetic; conversely `Line.__eq__` holds exactly when
the `(m, b)` pairs agree. -/
theorem claim_C4 (p1 p2 q1 q2 : Point) (m b : ℚ)
    (hx1 : p1.x ≠ p2.x) (hx2 : q1.x ≠ q2.x)
    (hp1 : p1.y = m * p1.x + b) (hp2 : p2.y = m * p2.x + b)
    (hq1 : q1.y = m * q1.x + b) (hq2 : q2.y = m * q2.x + b) :
    Line.mk? p1 p2 = some ⟨m, b⟩ ∧ Line.mk? q1 q2 = some ⟨m, b⟩ ∧
      Line.mk? p1 p2 = Line.mk? q1 q2 ∧
      ∀ L1 L2 : Line, lineEqB L1 L2 = true ↔ (L1.m = L2.m ∧ L1.b = L2.b) := by
  have e1 : Line.mk? p1 p2 = some ⟨m, b⟩ := by
    rw [mk?_eq_some_lineThrough (sub_ne_zero.mpr hx1)]
    exact congrArg some (lineThrough_eq_of_onLine hp1 hp2 hx1)
  have e2 : Line.mk? q1 q2 = some ⟨m, b⟩ := by
    rw [mk?_eq_some_lineThrough (sub_ne_zero.mpr hx2)]
    exact congrArg some (lineThrough_eq_of_onLine hq1 hq2 hx2)
  refine ⟨e1, e2, e1.trans e2.symm, ?_⟩
  intro L1 L2
  unfold lineEqB
  rw [Bool.and_eq_true, decide_eq_true_eq, decide_eq_true_eq]

theorem claim_C4_witness :
    Line.mk? ⟨0, 0⟩ ⟨2, 2⟩ = some ⟨1, 0⟩ ∧
    Line.mk? ⟨1, 1⟩ ⟨3, 3⟩ = some ⟨1, 0⟩ ∧
    Line.mk? ⟨0, 0⟩ ⟨2, 2⟩ = Line.mk? ⟨1, 1⟩ ⟨3, 3⟩ ∧
    (lineEqB ⟨1, 0⟩ ⟨1, 0⟩ = true ↔
      ((⟨1, 0⟩ : Line).m = (⟨1, 0⟩ : Line).m ∧
       (⟨1, 0⟩ : Line).b = (⟨1, 0⟩ : Line).b)) := by
  have h := claim_C4 ⟨0, 0⟩ ⟨2, 2⟩ ⟨1, 1⟩ ⟨3, 3⟩ 1 0 (by norm_num) (by norm_num)
    (by norm_num) (by norm_num) (by norm_num) (by norm_num)
  exact ⟨h.1, h.2.1, h.2.2.1, h.2.2.2 ⟨1, 0⟩ ⟨1, 0⟩⟩

/-- C5: No division by zero / totality: the `Line` constructor fails
exactly on pairs with equal x-coordinates, yet the loop body and the
whole scan always succeed, because the vertical branch guards the
constructor call. -/
theorem claim_C5 :
    (∀ pt1 pt2 : Point, pt1.x - pt2.x = 0 → Line.mk? pt1 pt2 = none) ∧
    (∀ (s : LineParser) (pt1 pt2 : Point), ∃ s',
      processPair s pt1 pt2 = some s') ∧
    (∀ l : List Point, ∃ s, get_lines_from_points LineParser.init l = some s) := by
  refine ⟨?_, processPair_isSome, fun l => scanPairs_isSome _ _⟩
  intro pt1 pt2 h
  exact mk?_eq_none_iff.mpr (sub_eq_zero.mp h)

theorem claim_C5_witness : Line.mk? ⟨1, 2⟩ ⟨1, 3⟩ = none :=
  claim_C5.1 ⟨1, 2⟩ ⟨1, 3⟩ (by norm_num)

/-- C6: Pair enumeration: the nested loops visit exactly the pairs
`(l[i], l[j])` with `i < j`, each unordered pair exactly once with the
first component preceding the second, `n·(n-1)/2` iterations in all. -/
theorem claim_C6 (l : List Point) :
    ((pairList l).length = l.length * (l.length - 1) / 2) ∧
    (∀ i j : Fin l.length, (i : ℕ) < j → (l.get i, l.get j) ∈ pairList l) ∧
    (∀ p q : Point, (p, q) ∈ pairList l →
      ∃ i j : Fin l.length, (i : ℕ) < j ∧ p = l.get i ∧ q = l.get j) ∧
    (l.Nodup → (pairList l).Nodup ∧
      ∀ p q : Point, (p, q) ∈ pairList l → (q, p) ∉ pairList l) := by
  refine ⟨?_, ?_, ?_, ?_⟩
  · have h2 := two_mul_length_pairList l
    omega
  · intro i j hij
    exact pairList_mem_iff.mpr ⟨i, j, hij, rfl, rfl⟩
  · intro p q hpq
    exact pairList_mem_iff.mp hpq
  · intro hnd
    refine ⟨pairList_nodup hnd, ?_⟩
    intro p q hpq hqp
    obtain ⟨i, j, hij, hp, hq⟩ := pairList_mem_iff.mp hpq
    obtain ⟨i2, j2, hij2, hq2, hp2⟩ := pairList_mem_iff.mp hqp
    have e1 : (i : ℕ) = (j2 : ℕ) := congrArg Fin.val
      ((List.Nodup.get_inj_iff hnd).mp (hp.symm.trans hp2))
    have e2 : (j : ℕ) = (i2 : ℕ) := congrArg Fin.val
      ((List.Nodup.get_inj_iff hnd).mp (hq.symm.trans hq2))
    omega

theorem claim_C6_witness :
    (pairList l3).length = l3.length * (l3.length - 1) / 2 ∧
    (l3.get ⟨0, by decide⟩, l3.get ⟨1, by decide⟩) ∈ pairList l3 ∧
    (pairList l3).Nodup ∧
    ((⟨1, 1⟩ : Point), (⟨0, 0⟩ : Point)) ∉ pairList l3 := by
  have h := claim_C6 l3
  exact ⟨h.1, h.2.1 ⟨0, by decide⟩ ⟨1, by decide⟩ (by decide),
    (h.2.2.2 (by decide)).1,
    (h.2.2.2 (by decide)).2 ⟨0, 0⟩ ⟨1, 1⟩ (by decide)⟩

/-- C9: The qualified-line shortcut is sound and complete: after the
scan a sloped line is in `three_point_lines` iff its accumulated set
has size ≥ 3, so the report, which iterates `three_point_lines`
without re-checking sizes, emits exactly the sloped lines with ≥ 3
points. -/
theorem claim_C9 (l : List Point) (hnd : l.Nodup) (s : LineParser)
    (hs : get_lines_from_points LineParser.init l = some s) :
    (∀ L : Line, L ∈ s.three_point_lines ↔ 3 ≤ (s.lines_to_points L).card) ∧
    s.three_point_lines =
      s.ltp_keys.filter (fun L => 3 ≤ (s.lines_to_points L).card) ∧
    slopedGroups s =
      (s.ltp_keys.filter (fun L => 3 ≤ (s.lines_to_points L).card)).image
        s.lines_to_points := by
  have inv := run_inv hnd hs
  have h1 : ∀ L : Line,
      L ∈ s.three_point_lines ↔ 3 ≤ (s.lines_to_points L).card := by
    intro L
    constructor
    · exact inv.three_card L
    · intro h3
      by_cases hk : L ∈ s.ltp_keys
      · exact inv.three_complete L hk h3
      · rw [inv.entry_empty L hk] at h3
        simp at h3
  have h2 : s.three_point_lines =
      s.ltp_keys.filter fun L => 3 ≤ (s.lines_to_points L).card := by
    ext L
    rw [Finset.mem_filter, h1]
    constructor
    · intro h3
      refine ⟨?_, h3⟩
      by_contra hk
      rw [inv.entry_empty L hk] at h3
      simp at h3
    · exact fun hc => hc.2
  refine ⟨h1, h2, ?_⟩
  unfold slopedGroups
  rw [h2]

theorem claim_C9_witness :
    ((⟨1, 0⟩ : Line) ∈ s3.three_point_lines ↔
      3 ≤ (s3.lines_to_points ⟨1, 0⟩).card) ∧
    s3.three_point_lines =
      s3.ltp_keys.filter (fun L => 3 ≤ (s3.lines_to_points L).card) := by
  have h := claim_C9 l3 (by decide) s3 (by with_unfolding_all rfl)
  exact ⟨h.1 ⟨1, 0⟩, h.2.1⟩

/-- C10: Vertical-line cardinality invariant: distinct deduplicated
points sharing an x have distinct y; for an x with at least two input
points the stored y-set equals the y-coordinates of all input points
at that x and has the same cardinality; the report-time test
`len(y_list) ≥ 3` holds exactly when ≥ 3 input points share that x. -/
theorem claim_C10 (l : List Point) (hnd : l.Nodup) (s : LineParser)
    (hs : get_lines_from_points LineParser.init l = some s) :
    (∀ p ∈ l.toFinset, ∀ q ∈ l.toFinset, p ≠ q → p.x = q.x → p.y ≠ q.y) ∧
    (∀ c : ℚ, 2 ≤ (l.toFinset.filter fun p => p.x = c).card →
      s.vertical_x_to_y c = (l.toFinset.filter fun p => p.x = c).image Point.y ∧
      (s.vertical_x_to_y c).card = (l.toFinset.filter fun p => p.x = c).card) ∧
    (∀ c : ℚ, 3 ≤ (s.vertical_x_to_y c).card ↔
      3 ≤ (l.toFinset.filter fun p => p.x = c).card) := by
  refine ⟨?_, ?_, ?_⟩
  · intro p _ q _ hne hx hy
    exact hne (Point.ext hx hy)
  · intro c hc
    have hk : c ∈ s.vertical_keys := (vkeys_iff hnd hs c).mpr hc
    exact ⟨vmap_eq hnd hs hk, vmap_card hnd hs hk⟩
  · intro c
    by_cases hk : c ∈ s.vertical_keys
    · rw [vmap_card hnd hs hk]
      exact Iff.rfl
    · rw [(run_inv hnd hs).v_empty c hk]
      simp only [Finset.card_empty]
      constructor
      · omega
      · intro h3
        have h3' : 2 ≤ (vertPts l c).card := by
          have h4 : 3 ≤ (vertPts l c).card := h3
          omega
        exact absurd ((vkeys_iff hnd hs c).mpr h3') hk

theorem claim_C10_witness :
    sv.vertical_x_to_y 2 = (lv.toFinset.filter fun p => p.x = 2).image Point.y ∧
    (sv.vertical_x_to_y 2).card = (lv.toFinset.filter fun p => p.x = 2).card ∧
    (3 ≤ (sv.vertical_x_to_y 2).card ↔
      3 ≤ (lv.toFinset.filter fun p => p.x = 2).card) := by
  have h := claim_C10 lv (by decide) sv (by with_unfolding_all rfl)
  obtain ⟨e1, e2⟩ := h.2.1 2 (by with_unfolding_all decide)
  exact ⟨e1, e2, h.2.2 2⟩

/-! ## Analysis of a run on three mutually collinear points -/

lemma onLine_of_collinear3 {a b c : Point} (h : collinear3 a b c)
    (hab : a.x ≠ b.x) : c.onLine (lineThrough a b) := by
  unfold collinear3 at h
  have hx : a.x - b.x ≠ 0 := sub_ne_zero.mpr hab
  unfold Point.onLine lineThrough
  dsimp only
  field_simp
  linear_combination -h

lemma triple_cases {a b c : Point} (h : collinear3 a b c)
    (hab : a ≠ b) (hac : a ≠ c) (hbc : b ≠ c) :
    (a.x = b.x ∧ a.x = c.x) ∨ (a.x ≠ b.x ∧ a.x ≠ c.x ∧ b.x ≠ c.x) := by
  unfold collinear3 at h
  by_cases h1 : a.x = b.x
  · left
    refine ⟨h1, ?_⟩
    have hby : b.y ≠ a.y := fun e => hab (Point.ext h1 e.symm)
    have h0 : b.x - a.x = 0 := sub_eq_zero.mpr h1.symm
    rw [h0, zero_mul] at h
    rcases mul_eq_zero.mp h.symm with h2 | h2
    · exact (sub_eq_zero.mp h2).symm
    · exact absurd (sub_eq_zero.mp h2) hby
  · by_cases h2 : a.x = c.x
    · exfalso
      have h0 : c.x - a.x = 0 := sub_eq_zero.mpr h2.symm
      rw [h0, zero_mul] at h
      rcases mul_eq_zero.mp h with h3 | h3
      · exact h1 (sub_eq_zero.mp h3).symm
      · exact hac (Point.ext h2 (sub_eq_zero.mp h3).symm)
    · right
      refine ⟨h1, h2, ?_⟩
      intro h3
      rw [← h3] at h
      have hne0 : b.x - a.x ≠ 0 := sub_ne_zero.mpr fun e => h1 e.symm
      have hcy := mul_left_cancel₀ hne0 h
      exact hbc (Point.ext h3 (by linarith))

lemma run_triple {a b c : Point} {s : LineParser}
    (hab : a ≠ b) (hac : a ≠ c) (hbc : b ≠ c) (hcol : collinear3 a b c)
    (hs : get_lines_from_points LineParser.init [a, b, c] = some s) :
    allGroups s = {[a, b, c].toFinset} ∧ numGroups s = 1 ∧
      [a, b, c].toFinset.card = 3 := by
  have hnd : ([a, b, c] : List Point).Nodup := by
    simp [hab, hac, hbc]
  have htf : ([a, b, c] : List Point).toFinset = {a, b, c} := by
    simp
  have hcard3 : (([a, b, c] : List Point).toFinset).card = 3 := by
    rw [htf, Finset.card_eq_three]
    exact ⟨a, b, c, hab, hac, hbc, rfl⟩
  have hmem_a : a ∈ ([a, b, c] : List Point).toFinset := by simp
  have hmem_b : b ∈ ([a, b, c] : List Point).toFinset := by simp
  have hline_full : ∀ L : Line, 3 ≤ (linePts [a, b, c] L).card →
      linePts [a, b, c] L = ([a, b, c] : List Point).toFinset := by
    intro L h3
    have hsub : linePts [a, b, c] L ⊆ ([a, b, c] : List Point).toFinset :=
      Finset.filter_subset _ _
    apply Finset.eq_of_subset_of_card_le hsub
    omega
  have hvert_full : ∀ x : ℚ, 3 ≤ (vertPts [a, b, c] x).card →
      vertPts [a, b, c] x = ([a, b, c] : List Point).toFinset := by
    intro x h3
    have hsub : vertPts [a, b, c] x ⊆ ([a, b, c] : List Point).toFinset :=
      Finset.filter_subset _ _
    apply Finset.eq_of_subset_of_card_le hsub
    omega
  rcases triple_cases hcol hab hac hbc with ⟨h1, h2⟩ | ⟨h1, h2, h3⟩
  · -- all three share the x-coordinate `a.x`: one vertical group
    have hvp : vertPts [a, b, c] a.x = ([a, b, c] : List Point).toFinset := by
      apply Finset.filter_eq_self.mpr
      intro p hp
      rw [htf] at hp
      rcases Finset.mem_insert.mp hp with rfl | hp
      · rfl
      · rcases Finset.mem_insert.mp hp with rfl | hp
        · exact h1.symm
        · rw [Finset.mem_singleton.mp hp]
          exact h2.symm
    have hv3 : 3 ≤ (vertPts [a, b, c] a.x).card := by
      rw [hvp]
      omega
    have hno_sloped : ∀ L : Line, ¬ 3 ≤ (linePts [a, b, c] L).card := by
      intro L h3L
      have he := hline_full L h3L
      have haL : a ∈ linePts [a, b, c] L := he ▸ hmem_a
      have hbL : b ∈ linePts [a, b, c] L := he ▸ hmem_b
      exact x_ne_of_onLine (Finset.mem_filter.mp haL).2
        (Finset.mem_filter.mp hbL).2 hab h1
    refine ⟨?_, ?_, hcard3⟩
    · ext g
      rw [allGroups_iff hnd hs g, Finset.mem_singleton]
      constructor
      · rintro (⟨L, h3L, rfl⟩ | ⟨x, h3x, rfl⟩)
        · exact absurd h3L (hno_sloped L)
        · exact hvert_full x h3x
      · rintro rfl
        exact Or.inr ⟨a.x, hv3, hvp.symm⟩
    · have hthree : s.three_point_lines = ∅ :=
        Finset.eq_empty_of_forall_not_mem fun L hL =>
          hno_sloped L ((three_iff hnd hs L).mp hL)
      have hfilt : s.vertical_keys.filter
          (fun x => 3 ≤ (s.vertical_x_to_y x).card) = {a.x} := by
        ext x
        rw [Finset.mem_filter, Finset.mem_singleton]
        constructor
        · rintro ⟨hk, h3x⟩
          have hcx : 3 ≤ (vertPts [a, b, c] x).card := by
            rw [← vmap_card hnd hs hk]
            exact h3x
          have hax : a ∈ vertPts [a, b, c] x := (hvert_full x hcx) ▸ hmem_a
          exact ((Finset.mem_filter.mp hax).2).symm
        · rintro rfl
          have h2c : 2 ≤ (vertPts [a, b, c] a.x).card := by omega
          have hk : a.x ∈ s.vertical_keys := (vkeys_iff hnd hs a.x).mpr h2c
          refine ⟨hk, ?_⟩
          rw [vmap_card hnd hs hk]
          exact hv3
      unfold numGroups
      rw [hthree, hfilt]
      simp
  · -- pairwise-distinct x-coordinates: one sloped group on `lineThrough a b`
    have hona : a.onLine (lineThrough a b) := onLine_lineThrough_left a b
    have honb : b.onLine (lineThrough a b) := onLine_lineThrough_right a b h1
    have honc : c.onLine (lineThrough a b) := onLine_of_collinear3 hcol h1
    have hlp : linePts [a, b, c] (lineThrough a b) =
        ([a, b, c] : List Point).toFinset := by
      apply Finset.filter_eq_self.mpr
      intro p hp
      rw [htf] at hp
      rcases Finset.mem_insert.mp hp with rfl | hp
      · exact hona
      · rcases Finset.mem_insert.mp hp with rfl | hp
        · exact honb
        · rw [Finset.mem_singleton.mp hp]
          exact honc
    have hl3 : 3 ≤ (linePts [a, b, c] (lineThrough a b)).card := by
      rw [hlp]
      omega
    have huniq : ∀ L : Line, 3 ≤ (linePts [a, b, c] L).card →
        L = lineThrough a b := by
      intro L h3L
      have he := hline_full L h3L
      have haL : a ∈ linePts [a, b, c] L := he ▸ hmem_a
      have hbL : b ∈ linePts [a, b, c] L := he ▸ hmem_b
      exact (lineThrough_eq_of_onLine (Finset.mem_filter.mp haL).2
        (Finset.mem_filter.mp hbL).2 h1).symm
    have hno_vert : ∀ x : ℚ, ¬ 3 ≤ (vertPts [a, b, c] x).card := by
      intro x h3x
      have he := hvert_full x h3x
      have hax : a ∈ vertPts [a, b, c] x := he ▸ hmem_a
      have hbx : b ∈ vertPts [a, b, c] x := he ▸ hmem_b
      exact h1 ((Finset.mem_filter.mp hax).2.trans
        ((Finset.mem_filter.mp hbx).2).symm)
    refine ⟨?_, ?_, hcard3⟩
    · ext g
      rw [allGroups_iff hnd hs g, Finset.mem_singleton]
      constructor
      · rintro (⟨L, h3L, rfl⟩ | ⟨x, h3x, rfl⟩)
        · exact hline_full L h3L
        · exact absurd h3x (hno_vert x)
      · rintro rfl
        exact Or.inl ⟨lineThrough a b, hl3, hlp.symm⟩
    · have hthree : s.three_point_lines = {lineThrough a b} := by
        ext L
        rw [three_iff hnd hs L, Finset.mem_singleton]
        constructor
        · exact huniq L
        · rintro rfl
          exact hl3
      have hfilt : s.vertical_keys.filter
          (fun x => 3 ≤ (s.vertical_x_to_y x).card) = ∅ := by
        apply Finset.eq_empty_of_forall_not_mem
        intro x hx
        obtain ⟨hk, h3x⟩ := Finset.mem_filter.mp hx
        refine hno_vert x ?_
        rw [← vmap_card hnd hs hk]
        exact h3x
      unfold numGroups
      rw [hthree, hfilt]
      simp

/-- C7: Boundary behavior: at most 2 points yield an empty result (and
no error); exactly 3 mutually collinear points yield exactly one group,
of size 3. -/
theorem claim_C7 (l : List Point) (hnd : l.Nodup) :
    (l.length ≤ 2 → ∃ s, get_lines_from_points LineParser.init l = some s ∧
      allGroups s = ∅ ∧ numGroups s = 0) ∧
    (∀ a b c : Point, l = [a, b, c] → collinear3 a b c →
      ∃ s, get_lines_from_points LineParser.init l = some s ∧
        allGroups s = {l.toFinset} ∧ numGroups s = 1 ∧ l.toFinset.card = 3) := by
  constructor
  · intro hlen
    obtain ⟨s, hs⟩ := scanPairs_isSome (pairList l) LineParser.init
    have hs' : get_lines_from_points LineParser.init l = some s := hs
    have hcard : l.toFinset.card ≤ 2 := le_trans (List.toFinset_card_le l) hlen
    have hno_sloped : ∀ L : Line, ¬ 3 ≤ (linePts l L).card := by
      intro L h3
      have hle : (linePts l L).card ≤ l.toFinset.card :=
        Finset.card_le_card (Finset.filter_subset _ _)
      omega
    have hno_vert : ∀ x : ℚ, ¬ 3 ≤ (vertPts l x).card := by
      intro x h3
      have hle : (vertPts l x).card ≤ l.toFinset.card :=
        Finset.card_le_card (Finset.filter_subset _ _)
      omega
    refine ⟨s, hs', ?_, ?_⟩
    · apply Finset.eq_empty_of_forall_not_mem
      intro g hg
      rcases (allGroups_iff hnd hs' g).mp hg with ⟨L, h3, _⟩ | ⟨x, h3, _⟩
      · exact hno_sloped L h3
      · exact hno_vert x h3
    · have hthree : s.three_point_lines = ∅ :=
        Finset.eq_empty_of_forall_not_mem fun L hL =>
          hno_sloped L ((three_iff hnd hs' L).mp hL)
      have hfilt : s.vertical_keys.filter
          (fun x => 3 ≤ (s.vertical_x_to_y x).card) = ∅ := by
        apply Finset.eq_empty_of_forall_not_mem
        intro x hx
        obtain ⟨hk, h3x⟩ := Finset.mem_filter.mp hx
        refine hno_vert x ?_
        rw [← vmap_card hnd hs' hk]
        exact h3x
      unfold numGroups
      rw [hthree, hfilt]
      simp
  · intro a b c hl hcol
    subst hl
    have hab : a ≠ b := by
      intro e
      subst e
      simp at hnd
    have hac : a ≠ c := by
      intro e
      subst e
      simp at hnd
    have hbc : b ≠ c := by
      intro e
      subst e
      simp at hnd
    obtain ⟨s, hs⟩ := scanPairs_isSome (pairList [a, b, c]) LineParser.init
    have hs' : get_lines_from_points LineParser.init [a, b, c] = some s := hs
    obtain ⟨hg, hn, h3⟩ := run_triple hab hac hbc hcol hs'
    exact ⟨s, hs', hg, hn, h3⟩

theorem claim_C7_witness :
    allGroups s3 = {l3.toFinset} ∧ numGroups s3 = 1 ∧ l3.toFinset.card = 3 := by
  obtain ⟨s, hs, hg, hn, hc⟩ := (claim_C7 l3 (by decide)).2 ⟨0, 0⟩ ⟨1, 1⟩ ⟨2, 2⟩
    rfl (by with_unfolding_all decide)
  have h2 : get_lines_from_points LineParser.init l3 = some s3 := by
    with_unfolding_all rfl
  rw [h2] at hs
  injection hs with e
  rw [e]
  exact ⟨hg, hn, hc⟩

/-! ## Re-running the scan on the mutated parser state -/

lemma processPair_rescan {A : Finset Point} {s : LineParser} {p q : Point}
    (inv : ScanInv A s) (hr : recorded s p q) :
    processPair s p q = some s := by
  unfold processPair
  split
  case isTrue hx =>
    rw [mk?_eq_some_lineThrough hx, Option.map_some']
    obtain ⟨hk, hp, hq2⟩ := hr.1 _ (mk?_eq_some_lineThrough hx)
    rw [if_pos hk]
    dsimp only
    have hpts : insert q (insert p (s.lines_to_points (lineThrough p q))) =
        s.lines_to_points (lineThrough p q) := by
      rw [Finset.insert_eq_self.mpr hp, Finset.insert_eq_self.mpr hq2]
    refine congrArg some (LineParser.ext rfl ?_ rfl rfl rfl ?_)
    · rw [hpts, Function.update_eq_self]
    · rw [hpts]
      by_cases h3 : 3 ≤ (s.lines_to_points (lineThrough p q)).card
      · rw [if_neg fun hcon => hcon.2 (inv.three_complete _ hk h3)]
      · rw [if_neg fun hcon => h3 hcon.1]
  case isFalse hx =>
    obtain ⟨hk, hy1, hy2⟩ := hr.2 (not_not.mp hx)
    rw [if_pos hk]
    have hys : insert q.y (insert p.y (s.vertical_x_to_y q.x)) =
        s.vertical_x_to_y q.x := by
      rw [Finset.insert_eq_self.mpr hy1, Finset.insert_eq_self.mpr hy2]
    refine congrArg some (LineParser.ext rfl rfl rfl ?_ rfl rfl)
    rw [hys, Function.update_eq_self]

lemma scanPairs_rescan {A : Finset Point} {s : LineParser}
    {ps : List (Point × Point)} (inv : ScanInv A s)
    (hrec : ∀ pq ∈ ps, recorded s pq.1 pq.2) : scanPairs ps s = some s := by
  induction ps with
  | nil => rfl
  | cons pq rest ih =>
    unfold scanPairs
    rw [processPair_rescan inv (hrec pq (List.mem_cons_self pq rest))]
    exact ih fun pq' h => hrec pq' (List.mem_cons_of_mem pq h)

/-- C8 (amended): the engine's result is determined by the accumulated
state, but an invocation leaves the accumulation dictionaries populated:
a second `get_lines_from_points` pass over the same materialized points
runs on the mutated state (and happens to reproduce it), so a
subsequent invocation on the same object reports the accumulated
groups, whereas a fresh parser run on an empty input reports none. -/
theorem claim_C8_amended (l : List Point) (hnd : l.Nodup) (s : LineParser)
    (hs : get_lines_from_points LineParser.init l = some s) :
    get_lines_from_points s l = some s ∧
      (get_lines_from_points LineParser.init ([] : List Point)).map allGroups =
        some ∅ := by
  constructor
  · refine scanPairs_rescan (run_inv hnd hs) ?_
    rintro ⟨p, q⟩ hpq
    exact scanPairs_records hs hpq
  · exact congrArg some (by with_unfolding_all decide)

theorem claim_C8_counterexample :
    s3.three_point_lines ≠ LineParser.init.three_point_lines ∧
    (get_lines_from_points s3 l3).isSome = true ∧
    allGroups ((get_lines_from_points s3 l3).getD LineParser.init) =
      {({⟨0, 0⟩, ⟨1, 1⟩, ⟨2, 2⟩} : Finset Point)} ∧
    allGroups ((get_lines_from_points LineParser.init
      ([] : List Point)).getD LineParser.init) = ∅ := by
  refine ⟨?_, ?_, ?_, ?_⟩ <;> with_unfolding_all decide

theorem claim_C8_amended_witness :
    get_lines_from_points s3 l3 = some s3 ∧
      (get_lines_from_points LineParser.init ([] : List Point)).map allGroups =
        some ∅ :=
  claim_C8_amended l3 (by decide) s3 (by with_unfolding_all rfl)
